import Mathlib

/-
Verification of the glossary-manager core (GlossaryManagerV1.1.py):
the in-memory term store (an insertion-ordered string-keyed mapping),
its add / remove / save / load operations, and the analytics functions
(statistics, duplicate-translation report, consistency report).

Modelling conventions:
- A Python dict is embedded as an insertion-ordered association list
  `List (String × _)`; `d[k] = v` is `alSet` (replace in place if the key
  is present, else append), `del d[k]` is `List.eraseP`, `d.get`/`in` are
  `alGet` / `List.any`.
- Python `str.strip()` is `pyStrip` (drop whitespace from both ends).
- Exceptions caught by the source's try/except blocks are embedded as the
  value returned by the except branch (the GUI message box is ignored).
- Python float arithmetic inside the percent format string is embedded
  exactly: the division and the multiplication by 100 are IEEE-754
  binary64 operations (round-nearest, ties-to-even) computed on exact
  integer pairs, and `"%.1f"` renders the resulting double to the nearest
  multiple of one tenth of its exact value (a binary double is never an
  exact decimal tie, so the formatter's tie rule never fires).
- JSON serialization is embedded as the mapping `String × PersistedTerm`
  that `save_terms` builds and `load_terms` consumes; the JSON encoding
  itself round-trips string fields exactly and is not modelled.
-/

namespace Glossary

/-- A glossary entry, mirroring the `Term` dataclass: two required text
fields, four optional text fields, plus the vestigial `flags` / `history`
fields (a set and a list in the source; `flags` is only ever the empty set,
so it is embedded as a list). -/
structure Term where
  term : String
  translation : String
  category : String := ""
  context : String := ""
  notes : String := ""
  created_at : String := ""
  flags : List String := []
  history : List String := []
deriving DecidableEq, Repr, Inhabited

/-- The six fields of a term that `save_terms` writes to `data/terms.json`. -/
structure PersistedTerm where
  term : String
  translation : String
  category : String
  context : String
  notes : String
  created_at : String
deriving DecidableEq, Repr

/-- The in-memory store `self.terms`: a Python dict embedded as an
insertion-ordered association list from term text to record. -/
abbrev Store := List (String × Term)

/-- Python `str.strip()`: remove whitespace characters from both ends of
the string. -/
def pyStrip (s : String) : String :=
  String.mk (((s.data.dropWhile Char.isWhitespace).reverse.dropWhile
    Char.isWhitespace).reverse)

/-- Dict lookup: the value at the first matching key. -/
def alGet {κ α : Type} [DecidableEq κ] (k : κ) (l : List (κ × α)) : Option α :=
  (l.find? (fun p => p.1 = k)).map (fun p => p.2)

/-- Dict assignment `d[k] = v`: replace the first binding of `k` in place,
or append a new binding at the end (insertion order). -/
def alSet {κ α : Type} [DecidableEq κ] (k : κ) (v : α) :
    List (κ × α) → List (κ × α)
  | [] => [(k, v)]
  | p :: rest => if p.1 = k then (k, v) :: rest else p :: alSet k v rest

/-- The values of the store in iteration order (`self.terms.values()`). -/
def values (s : Store) : List Term := s.map (fun p => p.2)

/-- Embedding of `GlossaryManager.add_term`: reject (returning `false`, the
except branch) when the trimmed term or translation is empty, otherwise
store the record under its `term` text and return `true`.  The internal
`save_terms` call catches its own errors and cannot change the result. -/
def add_term (t : Term) (s : Store) : Bool × Store :=
  if pyStrip t.term = "" ∨ pyStrip t.translation = "" then (false, s)
  else (true, alSet t.term t s)

/-- Result of `remove_term`: the returned Bool, the store afterwards, and
whether `save_terms` (persistence) was invoked. -/
structure RemoveResult where
  ok : Bool
  store : Store
  saved : Bool
deriving DecidableEq, Repr

/-- Embedding of `GlossaryManager.remove_term`: delete the entry when the
key is present (and persist), otherwise return `false` without touching
the store or the file. -/
def remove_term (k : String) (s : Store) : RemoveResult :=
  if s.any (fun p => p.1 = k) then
    { ok := true, store := s.eraseP (fun p => p.1 = k), saved := true }
  else
    { ok := false, store := s, saved := false }

/-- Embedding of `GlossaryManager.save_terms`: the serialized mapping,
keeping for each record exactly the six persisted fields. -/
def save_terms (s : Store) : List (String × PersistedTerm) :=
  s.map (fun p =>
    (p.1, { term := p.2.term, translation := p.2.translation,
            category := p.2.category, context := p.2.context,
            notes := p.2.notes, created_at := p.2.created_at }))

/-- Embedding of `GlossaryManager.load_terms` on a present, well-formed
file: rebuild each record via `Term(**value)`, whose `__post_init__` fills
`created_at` with the current time `now` when the stored string is empty
and resets `flags` / `history` to their defaults. -/
def load_terms (now : String) (d : List (String × PersistedTerm)) : Store :=
  d.map (fun p =>
    (p.1, { term := p.2.term, translation := p.2.translation,
            category := p.2.category, context := p.2.context,
            notes := p.2.notes,
            created_at := if p.2.created_at = "" then now else p.2.created_at,
            flags := [], history := [] }))

/-- Result of `get_statistics`: the four entries of the returned dict
(总数 / 已翻译 / 翻译进度 / 分类统计). -/
structure Stats where
  total : Nat
  translated : Nat
  progress : String
  categories : List (String × Nat)
deriving DecidableEq, Repr

/-- The `sum(1 for t in self.terms.values() if t.translation)` loop:
count the values with truthy (non-empty) translation. -/
def trLoop : List Term → Nat → Nat
  | [], n => n
  | t :: rest, n => trLoop rest (if t.translation ≠ "" then n + 1 else n)

/-- The category-counting loop of `get_statistics`:
`categories[c] = categories.get(c, 0) + 1` for each value with truthy
(non-empty) category. -/
def catLoop : List Term → List (String × Nat) → List (String × Nat)
  | [], acc => acc
  | t :: rest, acc =>
      if t.category ≠ "" then
        catLoop rest (alSet t.category ((alGet t.category acc).getD 0 + 1) acc)
      else
        catLoop rest acc

/-- Round a nonnegative rational `num/den` to the nearest integer, with
ties to even (`den` positive) — the rounding used by binary64
operations. -/
def rhe (num den : Nat) : Nat :=
  let q := num / den
  let r := num % den
  if den < 2 * r then q + 1
  else if 2 * r < den then q
  else if q % 2 = 0 then q else q + 1

/-- Whether `2^e ≤ num/den` (for positive `num`, `den`). -/
def pow2Le (e : Int) (num den : Nat) : Bool :=
  if 0 ≤ e then den * 2 ^ e.toNat ≤ num
  else den ≤ num * 2 ^ (-e).toNat

/-- The floor of `log2 (num/den)` (for positive `num`, `den`):
`Nat.log2` of the two sides brackets the answer within one, settled by a
direct comparison. -/
def floorLog2 (num den : Nat) : Int :=
  let a : Int := (Nat.log2 num : Int) - (Nat.log2 den : Int) - 1
  if pow2Le (a + 1) num den then a + 1 else a

/-- The IEEE-754 binary64 (double, round-nearest-ties-even) value nearest
`num/den`, as a dyadic pair `(m, E)` denoting `m * 2^E`.  Subnormal
results are rounded at `2^-1074`; overflow cannot occur at the magnitudes
of a percentage. -/
def fl64 (num den : Nat) : Nat × Int :=
  if num = 0 then (0, 0)
  else
    let e := floorLog2 num den
    let E : Int := if e < -1022 then -1074 else e - 52
    let m := if 0 ≤ E then rhe num (den * 2 ^ E.toNat)
             else rhe (num * 2 ^ (-E).toNat) den
    (m, E)

/-- The binary64 product of the double `x` with the exact constant 100. -/
def flMul100 (x : Nat × Int) : Nat × Int :=
  if 0 ≤ x.2 then fl64 (x.1 * 100 * 2 ^ x.2.toNat) 1
  else fl64 (x.1 * 100) (2 ^ (-x.2).toNat)

/-- The format string `f"{(translated / total * 100):.1f}%"`: the division
and the multiplication by 100 are binary64 operations, and `"%.1f"`
renders the resulting double to one decimal place — the multiple of one
tenth nearest the double's exact value (a binary double is never an exact
tie at one decimal place, so the formatter's tie rule is immaterial) —
printed as `intpart.digit%`.  `total` must be non-zero, which the
caller's truthiness test guarantees. -/
def fmt1 (translated total : Nat) : String :=
  let d := flMul100 (fl64 translated total)
  let tenths :=
    if 0 ≤ d.2 then d.1 * 10 * 2 ^ d.2.toNat
    else rhe (d.1 * 10) (2 ^ (-d.2).toNat)
  toString (tenths / 10) ++ "." ++ toString (tenths % 10) ++ "%"

/-- Embedding of `GlossaryManager.get_statistics`. -/
def get_statistics (s : Store) : Stats :=
  { total := s.length
    translated := trLoop (values s) 0
    progress := if s.length ≠ 0 then fmt1 (trLoop (values s) 0) s.length else "0%"
    categories := catLoop (values s) [] }

/-- Result of `check_duplicates`: the returned dict.  The source never
appends to its `"terms"` list, but the field is kept for fidelity. -/
structure Duplicates where
  terms : List (String × String)
  translations : List (String × String)
deriving DecidableEq, Repr

/-- The loop of `check_duplicates`: walk the values keeping, per
translation text, the first term seen with it; for each later value whose
translation is already recorded, emit `(ownerTerm, currentTerm)`. -/
def dupLoop : List Term → List (String × Term) → List (String × String)
  | [], _ => []
  | t :: rest, seen =>
      match alGet t.translation seen with
      | some owner => (owner.term, t.term) :: dupLoop rest seen
      | none => dupLoop rest (alSet t.translation t seen)

/-- Embedding of `GlossaryManager.check_duplicates`. -/
def check_duplicates (s : Store) : Duplicates :=
  { terms := [], translations := dupLoop (values s) [] }

/-- The f-string `f"术语'{t}'有不同的翻译: {old} vs {new}"` of
`check_consistency` (apostrophes written as escapes). -/
def issueStr (t old new : String) : String :=
  "术语\x27" ++ t ++ "\x27有不同的翻译: " ++ old ++ " vs " ++ new

/-- The loop of `check_consistency` over (term, translation) pairs: record
the first translation seen for each term text; report an issue whenever a
later pair carries the same term text with a different translation. -/
def consLoop : List (String × String) → List (String × String) → List String
  | [], _ => []
  | p :: rest, seen =>
      match alGet p.1 seen with
      | some old =>
          if old ≠ p.2 then issueStr p.1 old p.2 :: consLoop rest seen
          else consLoop rest seen
      | none => consLoop rest (alSet p.1 p.2 seen)

/-- Embedding of `GlossaryManager.check_consistency`: the source runs the
loop over the store's own values. -/
def check_consistency (s : Store) : List String :=
  consLoop ((values s).map (fun t => (t.term, t.translation))) []

/-- Modelled from the spec: the consistency check run against an
externally supplied sequence of (term, translation) pairs.  The source
only exposes the loop over the store itself; the spec (§4.2, §9) requires
implementers to support an arbitrary input sequence, so the same loop is
applied to the given pairs. -/
def check_consistency_pairs (ps : List (String × String)) : List String :=
  consLoop ps []

/-- A Python value arriving in a `Term` field at runtime: a proper string,
or a non-string object (on which `.strip()` raises `AttributeError`). -/
inductive PVal where
  | str (s : String)
  | nonstr
deriving DecidableEq, Repr

/-- Python `.strip()` on a dynamic value: trims a string, raises (`none`)
on anything else. -/
def pstrip : PVal → Option String
  | PVal.str s => some (pyStrip s)
  | PVal.nonstr => none

/-- A `Term` whose two required fields hold arbitrary runtime values (the
dataclass performs no type check). -/
structure DynTerm where
  term : PVal
  translation : PVal
deriving DecidableEq, Repr

/-- A store keyed by runtime values, for records added with non-string
term texts. -/
abbrev DynStore := List (PVal × DynTerm)

/-- Embedding of `add_term` on dynamic records: a raising `.strip()` (on a
non-string field) lands in the same except branch as the blank-field
`ValueError`, so the call returns `False` with the store untouched;
otherwise the record is stored under its `term` value.  Python
short-circuits the blank test, but every path on which either `.strip()`
raises returns `False` unchanged, so the joint match is faithful. -/
def add_termD (t : DynTerm) (s : DynStore) : Bool × DynStore :=
  match pstrip t.term, pstrip t.translation with
  | some a, some b =>
      if a = "" ∨ b = "" then (false, s) else (true, alSet t.term t s)
  | _, _ => (false, s)

/-- The store invariant of §3: keys are pairwise distinct and each
record's `term` field equals its key. -/
def StoreInv (s : Store) : Prop :=
  (s.map (fun p => p.1)).Nodup ∧ ∀ p ∈ s, p.2.term = p.1

/-- The store states reachable by the public operations: the empty store
(startup with no or unreadable file), mutation by `add_term` /
`remove_term`, and reload of a file the program itself persisted. -/
inductive Reachable : Store → Prop where
  | init : Reachable []
  | add (t : Term) {s : Store} : Reachable s → Reachable (add_term t s).2
  | remove (k : String) {s : Store} : Reachable s → Reachable (remove_term k s).store
  | reload (now : String) {s : Store} :
      Reachable s → Reachable (load_terms now (save_terms s))

/-- Spec-side description of the duplicate-translation report
(§4.2): walk the values in order; a value whose translation already
occurred among the earlier values (`pre`) yields the pair
(first owner's term text, current term text). -/
def specDupAux : List Term → List Term → List (String × String)
  | _, [] => []
  | pre, t :: rest =>
      match pre.find? (fun u => u.translation = t.translation) with
      | some owner => (owner.term, t.term) :: specDupAux pre rest
      | none => specDupAux (pre ++ [t]) rest

/-- A sample record used to instantiate the claim theorems. -/
def demoTerm : Term := { term := "hello", translation := "你好" }

/-- A sample one-entry store used to instantiate the claim theorems. -/
def demoStore : Store := [("hello", demoTerm)]

/-- A sample record carrying a creation timestamp, as `__post_init__`
guarantees for every constructed record. -/
def demoTermStamped : Term :=
  { term := "hello", translation := "你好", category := "greeting",
    created_at := "2024-01-01 00:00:00", flags := ["checked"],
    history := ["created"] }

/-- A sample store realizing the spec's duplicate-translation example
`{A→"x", B→"y", C→"x"}`, inserted in that order. -/
def dupDemoStore : Store :=
  [("A", { term := "A", translation := "x" }),
   ("B", { term := "B", translation := "y" }),
   ("C", { term := "C", translation := "x" })]

/-- A sample store in which one translation is shared by three terms. -/
def tripleDemoStore : Store :=
  [("A", { term := "A", translation := "x" }),
   ("B", { term := "B", translation := "x" }),
   ("C", { term := "C", translation := "x" })]

section AssocLemmas

variable {κ α : Type} [DecidableEq κ]

@[simp]
theorem alGet_nil (k : κ) : alGet k ([] : List (κ × α)) = none := rfl

theorem alGet_cons (k : κ) (p : κ × α) (l : List (κ × α)) :
    alGet k (p :: l) = if p.1 = k then some p.2 else alGet k l := by
  simp only [alGet, List.find?]
  by_cases h : p.1 = k
  · simp [h]
  · simp [h]

theorem alGet_alSet_self (k : κ) (v : α) (l : List (κ × α)) :
    alGet k (alSet k v l) = some v := by
  induction l with
  | nil => simp [alSet, alGet_cons]
  | cons p rest ih =>
      by_cases h : p.1 = k
      · simp [alSet, h, alGet_cons]
      · simp [alSet, h, alGet_cons, ih]

theorem alGet_alSet_ne (k k' : κ) (v : α) (l : List (κ × α)) (h : k' ≠ k) :
    alGet k' (alSet k v l) = alGet k' l := by
  induction l with
  | nil => simp [alSet, alGet_cons, Ne.symm h]
  | cons p rest ih =>
      by_cases hp : p.1 = k
      · subst hp
        simp [alSet, alGet_cons, Ne.symm h]
      · simp [alSet, hp, alGet_cons, ih]

theorem length_alSet_of_any (k : κ) (v : α) (l : List (κ × α))
    (h : l.any (fun p => p.1 = k) = true) :
    (alSet k v l).length = l.length := by
  induction l with
  | nil => simp at h
  | cons p rest ih =>
      by_cases hp : p.1 = k
      · simp [alSet, hp]
      · simp only [List.any_cons, Bool.or_eq_true, decide_eq_true_eq] at h
        rcases h with h | h
        · exact absurd h hp
        · simp [alSet, hp, ih h]

theorem mem_alSet (k : κ) (v : α) (l : List (κ × α)) (q : κ × α)
    (h : q ∈ alSet k v l) : q = (k, v) ∨ q ∈ l := by
  induction l with
  | nil =>
      simp [alSet] at h
      exact Or.inl h
  | cons p rest ih =>
      rw [alSet] at h
      by_cases hp : p.1 = k
      · rw [if_pos hp] at h
        rcases List.mem_cons.mp h with h1 | h1
        · exact Or.inl h1
        · exact Or.inr (List.mem_cons_of_mem _ h1)
      · rw [if_neg hp] at h
        rcases List.mem_cons.mp h with h1 | h1
        · exact Or.inr (h1 ▸ List.mem_cons_self _ _)
        · rcases ih h1 with h2 | h2
          · exact Or.inl h2
          · exact Or.inr (List.mem_cons_of_mem _ h2)

theorem keys_alSet_of_any (k : κ) (v : α) (l : List (κ × α))
    (h : l.any (fun p => p.1 = k) = true) :
    (alSet k v l).map (fun p => p.1) = l.map (fun p => p.1) := by
  induction l with
  | nil => simp at h
  | cons p rest ih =>
      by_cases hp : p.1 = k
      · simp [alSet, hp]
      · simp only [List.any_cons, Bool.or_eq_true, decide_eq_true_eq] at h
        rcases h with h | h
        · exact absurd h hp
        · simp [alSet, hp, ih h]

theorem keys_alSet_of_not_any (k : κ) (v : α) (l : List (κ × α))
    (h : l.any (fun p => p.1 = k) = false) :
    (alSet k v l).map (fun p => p.1) = l.map (fun p => p.1) ++ [k] := by
  induction l with
  | nil => simp [alSet]
  | cons p rest ih =>
      simp only [List.any_cons, Bool.or_eq_false_iff, decide_eq_false_iff_not] at h
      simp [alSet, h.1, ih h.2]

theorem alGet_eq_none_of_not_any (k : κ) (l : List (κ × α))
    (h : l.any (fun p => p.1 = k) = false) : alGet k l = none := by
  induction l with
  | nil => rfl
  | cons p rest ih =>
      simp only [List.any_cons, Bool.or_eq_false_iff, decide_eq_false_iff_not] at h
      simp [alGet_cons, h.1, ih h.2]

theorem alGet_isSome_of_any (k : κ) (l : List (κ × α))
    (h : l.any (fun p => p.1 = k) = true) : (alGet k l).isSome := by
  induction l with
  | nil => simp at h
  | cons p rest ih =>
      by_cases hp : p.1 = k
      · simp [alGet_cons, hp]
      · simp only [List.any_cons, Bool.or_eq_true, decide_eq_true_eq] at h
        rcases h with h | h
        · exact absurd h hp
        · simp [alGet_cons, hp, ih h]

theorem any_key_iff_mem_keys (k : κ) (l : List (κ × α)) :
    l.any (fun p => p.1 = k) = true ↔ k ∈ l.map (fun p => p.1) := by
  constructor
  · intro h
    rw [List.any_eq_true] at h
    obtain ⟨p, hp, he⟩ := h
    exact List.mem_map.mpr ⟨p, hp, by simpa using he⟩
  · intro h
    obtain ⟨p, hp, he⟩ := List.mem_map.mp h
    rw [List.any_eq_true]
    exact ⟨p, hp, by simpa using he⟩

theorem alGet_eraseP_ne (k k' : κ) (l : List (κ × α)) (h : k' ≠ k) :
    alGet k' (l.eraseP (fun p => decide (p.1 = k))) = alGet k' l := by
  induction l with
  | nil => rfl
  | cons p rest ih =>
      by_cases hp : p.1 = k
      · simp [List.eraseP_cons, hp, alGet_cons, Ne.symm h]
      · simp [List.eraseP_cons, hp, alGet_cons, ih]

theorem alGet_eraseP_self (k : κ) (l : List (κ × α))
    (h : (l.map (fun p => p.1)).Nodup) :
    alGet k (l.eraseP (fun p => decide (p.1 = k))) = none := by
  induction l with
  | nil => rfl
  | cons p rest ih =>
      rw [List.map_cons, List.nodup_cons] at h
      by_cases hp : p.1 = k
      · simp only [List.eraseP_cons, hp, decide_True, cond_true]
        apply alGet_eq_none_of_not_any
        rw [Bool.eq_false_iff]
        intro hc
        rw [any_key_iff_mem_keys] at hc
        exact h.1 (hp ▸ hc)
      · simp only [List.eraseP_cons, hp, decide_False, cond_false]
        rw [alGet_cons, if_neg hp]
        exact ih h.2

theorem length_eraseP_of_any (k : κ) (l : List (κ × α))
    (h : l.any (fun p => p.1 = k) = true) :
    (l.eraseP (fun p => decide (p.1 = k))).length + 1 = l.length := by
  induction l with
  | nil => simp at h
  | cons p rest ih =>
      by_cases hp : p.1 = k
      · simp [List.eraseP_cons, hp]
      · simp only [List.any_cons, Bool.or_eq_true, decide_eq_true_eq] at h
        rcases h with h | h
        · exact absurd h hp
        · have := ih h
          simp only [List.eraseP_cons, hp, decide_False, cond_false, List.length_cons]
          omega

theorem keys_nodup_alSet (k : κ) (v : α) (l : List (κ × α))
    (h : (l.map (fun p => p.1)).Nodup) :
    ((alSet k v l).map (fun p => p.1)).Nodup := by
  cases hany : l.any (fun p => p.1 = k) with
  | true => rw [keys_alSet_of_any k v l hany]; exact h
  | false =>
      rw [keys_alSet_of_not_any k v l hany]
      have hk : k ∉ l.map (fun p => p.1) := by
        intro hc
        rw [← any_key_iff_mem_keys k l] at hc
        rw [hany] at hc
        exact Bool.false_ne_true hc
      simp [List.nodup_append, h, hk]

end AssocLemmas

/-- C1: for every record whose term and translation are non-blank after
trimming, `add_term` returns `True` and a subsequent lookup of the
record's term text returns that very record (so its `term` and
`translation` fields are those of the added record). -/
theorem add_then_get (t : Term) (s : Store)
    (h1 : pyStrip t.term ≠ "") (h2 : pyStrip t.translation ≠ "") :
    (add_term t s).1 = true ∧ alGet t.term (add_term t s).2 = some t := by
  have hc : ¬(pyStrip t.term = "" ∨ pyStrip t.translation = "") := by
    intro h
    rcases h with h | h
    · exact h1 h
    · exact h2 h
  rw [add_term, if_neg hc]
  exact ⟨rfl, alGet_alSet_self t.term t s⟩

theorem add_then_get_witness :
    (add_term demoTerm []).1 = true ∧
    alGet demoTerm.term (add_term demoTerm []).2 = some demoTerm :=
  add_then_get demoTerm [] (by decide) (by decide)

/-- C2: `add_term` on a record whose term or translation is blank (empty
after trimming) raises the `ValueError` caught by its except branch, so
it reports failure (`False`) and leaves the in-memory store exactly as it
was. -/
theorem add_blank_rejected (t : Term) (s : Store)
    (h : pyStrip t.term = "" ∨ pyStrip t.translation = "") :
    (add_term t s).1 = false ∧ (add_term t s).2 = s := by
  rw [add_term, if_pos h]
  exact ⟨rfl, rfl⟩

theorem add_blank_rejected_witness :
    (add_term { term := " ", translation := "你好" } demoStore).1 = false ∧
    (add_term { term := " ", translation := "你好" } demoStore).2 = demoStore :=
  add_blank_rejected { term := " ", translation := "你好" } demoStore
    (Or.inl (by decide))

/-- C9: `remove_term` on an absent key returns `false`, leaves the store
unchanged and does not persist; on a present key (in a store with unique
keys, the dict invariant) it returns `true`, persists, and deletes exactly
that entry: the key no longer resolves, every other key resolves as
before, and the entry count drops by one. -/
theorem remove_term_spec (k : String) (s : Store) :
    (s.any (fun p => p.1 = k) = false →
      (remove_term k s).ok = false ∧ (remove_term k s).store = s ∧
      (remove_term k s).saved = false) ∧
    ((s.map (fun p => p.1)).Nodup → s.any (fun p => p.1 = k) = true →
      (remove_term k s).ok = true ∧ (remove_term k s).saved = true ∧
      alGet k (remove_term k s).store = none ∧
      (∀ k2, k2 ≠ k → alGet k2 (remove_term k s).store = alGet k2 s) ∧
      (remove_term k s).store.length + 1 = s.length) := by
  constructor
  · intro h
    rw [remove_term, if_neg (by rw [h]; exact Bool.false_ne_true)]
    exact ⟨rfl, rfl, rfl⟩
  · intro hnd hany
    rw [remove_term, if_pos hany]
    refine ⟨rfl, rfl, ?_, ?_, ?_⟩
    · exact alGet_eraseP_self k s hnd
    · intro k2 hk2
      exact alGet_eraseP_ne k k2 s hk2
    · exact length_eraseP_of_any k s hany

theorem remove_term_spec_witness :
    ((remove_term "world" demoStore).ok = false ∧
     (remove_term "world" demoStore).store = demoStore ∧
     (remove_term "world" demoStore).saved = false) ∧
    ((remove_term "hello" demoStore).ok = true ∧
     (remove_term "hello" demoStore).saved = true ∧
     alGet "hello" (remove_term "hello" demoStore).store = none) := by
  have h1 := (remove_term_spec "world" demoStore).1 (by decide)
  have h2 := (remove_term_spec "hello" demoStore).2 (by decide) (by decide)
  exact ⟨⟨h1.1, h1.2.1, h1.2.2⟩, ⟨h2.1, h2.2.1, h2.2.2.1⟩⟩

/-- C10: `add_term` never propagates an exception: on every dynamic
record — including those whose term or translation is not a string, where
`.strip()` raises — it returns a Bool; when it returns `True` the record
is stored under its term value, and when it returns `False` the in-memory
mapping is exactly unchanged.  `remove_term` likewise always returns one
of the two Booleans. -/
theorem add_termD_total (t : DynTerm) (s : DynStore) :
    ((add_termD t s).1 = true →
      alGet t.term (add_termD t s).2 = some t) ∧
    ((add_termD t s).1 = false → (add_termD t s).2 = s) ∧
    (∀ (k : String) (s2 : Store),
      (remove_term k s2).ok = true ∨ (remove_term k s2).ok = false) := by
  refine ⟨?_, ?_, ?_⟩
  · intro h
    cases ha : pstrip t.term with
    | none => simp [add_termD, ha] at h
    | some a =>
        cases hb : pstrip t.translation with
        | none => simp [add_termD, ha, hb] at h
        | some b =>
            by_cases hab : a = "" ∨ b = ""
            · simp [add_termD, ha, hb, hab] at h
            · simp [add_termD, ha, hb, hab, alGet_alSet_self]
  · intro h
    cases ha : pstrip t.term with
    | none => simp [add_termD, ha]
    | some a =>
        cases hb : pstrip t.translation with
        | none => simp [add_termD, ha, hb]
        | some b =>
            by_cases hab : a = "" ∨ b = ""
            · simp [add_termD, ha, hb, hab]
            · simp [add_termD, ha, hb, hab] at h
  · intro k s2
    cases (remove_term k s2).ok with
    | true => exact Or.inl rfl
    | false => exact Or.inr rfl

theorem add_termD_total_witness :
    alGet (PVal.str "hello")
      (add_termD { term := PVal.str "hello", translation := PVal.str "你好" } []).2 =
      some { term := PVal.str "hello", translation := PVal.str "你好" } ∧
    (add_termD { term := PVal.nonstr, translation := PVal.str "你好" } []).2 =
      ([] : DynStore) := by
  constructor
  · exact (add_termD_total { term := PVal.str "hello", translation := PVal.str "你好" } []).1
      (by decide)
  · exact (add_termD_total { term := PVal.nonstr, translation := PVal.str "你好" } []).2.1
      (by decide)

theorem storeInv_add (t : Term) (s : Store) (h : StoreInv s) :
    StoreInv (add_term t s).2 := by
  by_cases hb : pyStrip t.term = "" ∨ pyStrip t.translation = ""
  · rw [add_term, if_pos hb]
    exact h
  · rw [add_term, if_neg hb]
    constructor
    · exact keys_nodup_alSet t.term t s h.1
    · intro p hp
      rcases mem_alSet t.term t s p hp with h' | h'
      · rw [h']
      · exact h.2 p h'

theorem storeInv_remove (k : String) (s : Store) (h : StoreInv s) :
    StoreInv (remove_term k s).store := by
  by_cases ha : s.any (fun p => p.1 = k) = true
  · rw [remove_term, if_pos ha]
    constructor
    · exact List.Nodup.sublist ((List.eraseP_sublist s).map (fun p => p.1)) h.1
    · intro p hp
      exact h.2 p ((List.eraseP_sublist s).subset hp)
  · rw [remove_term, if_neg ha]
    exact h

theorem storeInv_reload (now : String) (s : Store) (h : StoreInv s) :
    StoreInv (load_terms now (save_terms s)) := by
  constructor
  · simp only [load_terms, save_terms, List.map_map]
    exact h.1
  · intro p hp
    simp only [load_terms, save_terms, List.map_map, List.mem_map] at hp
    obtain ⟨q, hq, hpq⟩ := hp
    rw [← hpq]
    exact h.2 q hq

/-- C3: every store state reachable by the public operations (including a
reload of a file the program persisted) satisfies the uniqueness
invariant — keys are pairwise distinct and each record's `term` field
equals its key — and adding a (valid) record whose term equals an
existing key replaces that record in place: the entry count is unchanged,
the key now resolves to the new record, and every other key resolves as
before. -/
theorem reachable_invariant (s : Store) (h : Reachable s) :
    StoreInv s ∧
    ∀ t : Term, pyStrip t.term ≠ "" → pyStrip t.translation ≠ "" →
      s.any (fun p => p.1 = t.term) = true →
        (add_term t s).2.length = s.length ∧
        alGet t.term (add_term t s).2 = some t ∧
        ∀ k, k ≠ t.term → alGet k (add_term t s).2 = alGet k s := by
  constructor
  · induction h with
    | init => exact ⟨List.nodup_nil, fun p hp => absurd hp (List.not_mem_nil p)⟩
    | add t hs ih => exact storeInv_add t _ ih
    | remove k hs ih => exact storeInv_remove k _ ih
    | reload now hs ih => exact storeInv_reload now _ ih
  · intro t h1 h2 hmem
    have hc : ¬(pyStrip t.term = "" ∨ pyStrip t.translation = "") := by
      intro hh
      rcases hh with hh | hh
      · exact h1 hh
      · exact h2 hh
    rw [add_term, if_neg hc]
    exact ⟨length_alSet_of_any t.term t s hmem, alGet_alSet_self t.term t s,
      fun k hk => alGet_alSet_ne t.term k t s hk⟩

theorem reachable_invariant_witness :
    StoreInv (add_term demoTerm []).2 ∧
    alGet demoTerm.term (add_term demoTerm (add_term demoTerm []).2).2 =
      some demoTerm := by
  have h := reachable_invariant (add_term demoTerm []).2
    (Reachable.add demoTerm Reachable.init)
  exact ⟨h.1, (h.2 demoTerm (by decide) (by decide) (by decide)).2.1⟩

/-- C4: `save_terms` followed by `load_terms` into a fresh store yields
exactly the original records restricted to the six persisted fields, with
`flags` and `history` reset to their defaults regardless of their prior
values.  The hypothesis that every stored `created_at` is non-empty holds
for every record the program constructs, since `__post_init__` fills an
empty `created_at` with the current time. -/
theorem save_load_roundtrip (now : String) (s : Store)
    (h : ∀ p ∈ s, p.2.created_at ≠ "") :
    load_terms now (save_terms s) =
      s.map (fun p => (p.1, { p.2 with flags := [], history := [] })) := by
  unfold load_terms save_terms
  rw [List.map_map]
  apply List.map_congr_left
  intro p hp
  simp [h p hp]

theorem save_load_roundtrip_witness :
    load_terms "2025-06-01 12:00:00" (save_terms [("hello", demoTermStamped)]) =
      [("hello", { demoTermStamped with flags := [], history := [] })] :=
  save_load_roundtrip "2025-06-01 12:00:00" [("hello", demoTermStamped)]
    (by decide)

/-- C7: the consistency check run over an externally supplied sequence of
(term, translation) pairs — the entry point the spec requires, applying
the source's loop to the given pairs — reports, for the input
`[(hello, 你好), (hello, 您好)]`, exactly one issue naming both
translations. -/
theorem consistency_pairs_example :
    check_consistency_pairs [("hello", "你好"), ("hello", "您好")] =
      ["术语\x27hello\x27有不同的翻译: 你好 vs 您好"] := by
  decide

theorem consLoop_nil_of_nodup (ps : List (String × String))
    (seen : List (String × String))
    (hnd : (ps.map (fun p => p.1)).Nodup)
    (hdisj : ∀ p ∈ ps, alGet p.1 seen = none) :
    consLoop ps seen = [] := by
  induction ps generalizing seen with
  | nil => rfl
  | cons p rest ih =>
      rw [List.map_cons, List.nodup_cons] at hnd
      have h0 : alGet p.1 seen = none := hdisj p (List.mem_cons_self p rest)
      rw [consLoop, h0]
      apply ih
      · exact hnd.2
      intro q hq
      by_cases hqp : q.1 = p.1
      · exact absurd (hqp ▸ List.mem_map.mpr ⟨q, hq, rfl⟩) hnd.1
      · rw [alGet_alSet_ne p.1 q.1 p.2 seen hqp]
        exact hdisj q (List.mem_cons_of_mem p hq)

/-- C8: on every store satisfying the uniqueness invariant (distinct keys,
each record's `term` field equal to its key) the consistency check over
the store itself returns no issues. -/
theorem check_consistency_store_empty (s : Store)
    (hnd : (s.map (fun p => p.1)).Nodup)
    (hkey : ∀ p ∈ s, p.2.term = p.1) :
    check_consistency s = [] := by
  unfold check_consistency
  apply consLoop_nil_of_nodup
  · have hkeys :
        ((values s).map (fun t => (t.term, t.translation))).map (fun p => p.1) =
          s.map (fun p => p.1) := by
      unfold values
      rw [List.map_map, List.map_map]
      apply List.map_congr_left
      intro p hp
      exact hkey p hp
    rw [hkeys]
    exact hnd
  · intro q _
    rfl

theorem check_consistency_store_empty_witness :
    check_consistency dupDemoStore = [] :=
  check_consistency_store_empty dupDemoStore (by decide) (by decide)

theorem trLoop_eq (ts : List Term) (n : Nat) :
    trLoop ts n = n + (ts.filter (fun t => t.translation ≠ "")).length := by
  induction ts generalizing n with
  | nil => simp [trLoop]
  | cons t rest ih =>
      rw [trLoop]
      by_cases h : t.translation = ""
      · rw [if_neg (not_not_intro h), ih, List.filter_cons]
        simp [h]
      · rw [if_pos h, ih, List.filter_cons]
        simp only [h, ne_eq, not_false_eq_true, decide_true_eq_true, if_true,
          List.length_cons]
        omega

theorem catLoop_keys (ts : List Term) :
    ∀ (acc : List (String × Nat)), (∀ p ∈ acc, p.1 ≠ "") →
      ∀ p ∈ catLoop ts acc, p.1 ≠ "" := by
  induction ts with
  | nil =>
      intro acc hacc p hp
      rw [catLoop] at hp
      exact hacc p hp
  | cons t rest ih =>
      intro acc hacc
      rw [catLoop]
      by_cases h : t.category = ""
      · rw [if_neg (not_not_intro h)]
        exact ih acc hacc
      · rw [if_pos h]
        apply ih
        intro p hp
        rcases mem_alSet _ _ _ _ hp with h' | h'
        · rw [h']
          exact h
        · exact hacc p h'

theorem catLoop_get (c : String) (hc : c ≠ "") :
    ∀ (ts : List Term) (acc : List (String × Nat)),
      alGet c (catLoop ts acc) =
        if alGet c acc = none ∧ (ts.filter (fun t => t.category = c)).length = 0
        then none
        else some ((alGet c acc).getD 0 +
          (ts.filter (fun t => t.category = c)).length) := by
  intro ts
  induction ts with
  | nil =>
      intro acc
      rw [catLoop]
      cases hg : alGet c acc with
      | none => simp [hg]
      | some m => simp [hg]
  | cons t rest ih =>
      intro acc
      rw [catLoop]
      by_cases h0 : t.category = ""
      · have hne : ¬(t.category = c) := by
          rw [h0]
          exact Ne.symm hc
        rw [if_neg (not_not_intro h0), ih, List.filter_cons]
        simp [hne]
      · rw [if_pos h0]
        by_cases h1 : t.category = c
        · have hsome :
              alGet c (alSet t.category ((alGet t.category acc).getD 0 + 1) acc) =
                some ((alGet c acc).getD 0 + 1) := by
            rw [h1]
            exact alGet_alSet_self c _ acc
          rw [ih, hsome, List.filter_cons]
          cases hg : alGet c acc with
          | none =>
              simp only [hg, Option.getD_none, Option.getD_some, h1,
                decide_true_eq_true, if_true, List.length_cons,
                Option.some.injEq]
              simp
              omega
          | some m =>
              simp only [hg, Option.getD_some, h1, decide_true_eq_true,
                if_true, List.length_cons, Option.some.injEq]
              simp
              omega
        · have hgacc :
              alGet c (alSet t.category ((alGet t.category acc).getD 0 + 1) acc) =
                alGet c acc :=
            alGet_alSet_ne t.category c _ acc (Ne.symm h1)
          rw [ih, hgacc, List.filter_cons]
          simp [h1]

/-- C5: `get_statistics` returns the record count as total, the count of
records with truthy (non-empty) translation as translated, a per-category
mapping counting records grouped by truthy category (blank-category
records excluded, and no blank key ever appears), and the percentage
`translated/total*100` formatted to one decimal with a percent suffix —
except the literal `"0%"` when the store is empty; in particular the
empty store yields total 0, translated 0, progress `"0%"` and an empty
category mapping. -/
theorem get_statistics_spec (s : Store) :
    (get_statistics s).total = s.length ∧
    (get_statistics s).translated =
      ((values s).filter (fun t => t.translation ≠ "")).length ∧
    (∀ c, c ≠ "" →
      alGet c (get_statistics s).categories =
        (if ((values s).filter (fun t => t.category = c)).length = 0 then none
         else some ((values s).filter (fun t => t.category = c)).length)) ∧
    (∀ p ∈ (get_statistics s).categories, p.1 ≠ "") ∧
    (get_statistics s).progress =
      (if s.length = 0 then "0%"
       else fmt1 ((values s).filter (fun t => t.translation ≠ "")).length
         s.length) ∧
    get_statistics [] =
      { total := 0, translated := 0, progress := "0%", categories := [] } := by
  refine ⟨rfl, ?_, ?_, ?_, ?_, ?_⟩
  · show trLoop (values s) 0 = _
    rw [trLoop_eq]
    simp
  · intro c hc
    show alGet c (catLoop (values s) []) = _
    rw [catLoop_get c hc (values s) []]
    simp
  · exact catLoop_keys (values s) []
      (fun p hp => absurd hp (List.not_mem_nil p))
  · show (if s.length ≠ 0 then fmt1 (trLoop (values s) 0) s.length else "0%") = _
    rw [trLoop_eq]
    by_cases hlen : s.length = 0
    · simp [hlen]
    · simp [hlen]
  · rfl

theorem get_statistics_spec_witness :
    (get_statistics [("hello", demoTermStamped)]).total = 1 ∧
    alGet "greeting" (get_statistics [("hello", demoTermStamped)]).categories =
      some 1 := by
  constructor
  · rw [(get_statistics_spec [("hello", demoTermStamped)]).1]
    rfl
  · rw [(get_statistics_spec [("hello", demoTermStamped)]).2.2.1 "greeting"
      (by decide)]
    decide

theorem find?_append_some {α : Type} (p : α → Bool) (l1 l2 : List α) (a : α)
    (h : l1.find? p = some a) : (l1 ++ l2).find? p = some a := by
  induction l1 with
  | nil => simp [List.find?] at h
  | cons x rest ih =>
      cases hx : p x with
      | true =>
          rw [List.find?_cons_of_pos _ hx] at h
          rw [List.cons_append, List.find?_cons_of_pos _ hx]
          exact h
      | false =>
          rw [List.find?_cons_of_neg _ (by simp [hx])] at h
          rw [List.cons_append, List.find?_cons_of_neg _ (by simp [hx])]
          exact ih h

theorem find?_append_none {α : Type} (p : α → Bool) (l1 l2 : List α)
    (h : l1.find? p = none) : (l1 ++ l2).find? p = l2.find? p := by
  induction l1 with
  | nil => rfl
  | cons x rest ih =>
      cases hx : p x with
      | true => rw [List.find?_cons_of_pos _ hx] at h; cases h
      | false =>
          rw [List.find?_cons_of_neg _ (by simp [hx])] at h
          rw [List.cons_append, List.find?_cons_of_neg _ (by simp [hx])]
          exact ih h

theorem dupLoop_eq_spec :
    ∀ (ts pre : List Term) (seen : List (String × Term)),
      (∀ tr, alGet tr seen = pre.find? (fun u => u.translation = tr)) →
      dupLoop ts seen = specDupAux pre ts := by
  intro ts
  induction ts with
  | nil => intro pre seen _; rfl
  | cons t rest ih =>
      intro pre seen h
      rw [dupLoop, specDupAux, ← h t.translation]
      cases hm : alGet t.translation seen with
      | some owner => exact congrArg (List.cons (owner.term, t.term)) (ih pre seen h)
      | none =>
          apply ih
          intro tr
          by_cases htr : tr = t.translation
          · subst htr
            have hpre : pre.find? (fun u => u.translation = t.translation) = none := by
              rw [← h t.translation]
              exact hm
            rw [alGet_alSet_self, find?_append_none _ _ _ hpre,
              List.find?_cons_of_pos _ (by simp)]
          · rw [alGet_alSet_ne _ _ _ _ htr, h tr]
            cases hp : pre.find? (fun u => u.translation = tr) with
            | some a => rw [find?_append_some _ _ _ _ hp]
            | none =>
                rw [find?_append_none _ _ _ hp,
                  List.find?_cons_of_neg _ (by simp [Ne.symm htr])]
                rfl

/-- C6: the duplicate-translation report equals the spec's description —
walking the values in insertion order, each value whose translation
already occurred earlier yields one pair (first owner's term text, current
term text) — and on the stores `{A→x, B→y, C→x}` and `{A→x, B→x, C→x}` it
returns exactly `[(A, C)]` and `[(A, B), (A, C)]` respectively (one pair
per extra occurrence, all naming the first owner). -/
theorem check_duplicates_spec (s : Store) :
    (check_duplicates s).translations = specDupAux [] (values s) ∧
    check_duplicates dupDemoStore =
      { terms := [], translations := [("A", "C")] } ∧
    check_duplicates tripleDemoStore =
      { terms := [], translations := [("A", "B"), ("A", "C")] } := by
  refine ⟨?_, by decide, by decide⟩
  show dupLoop (values s) [] = _
  apply dupLoop_eq_spec
  intro tr
  rfl

end Glossary
